import Mathlib

/-!
Verification of `vol_wrapper.go`: a bounded-concurrency dispatcher that runs
Volatility modules in parallel, maintains a live registry of running modules
(`runningModules : sync.Map`), and prints status snapshots on key press.

The Go program is shallowly embedded:
* string/path computations (`runModule` lines 26-27) as functions on `List Char`
  wrapped in `String`;
* a single `runModule` call (lines 19-47) as a pure function from its
  environment outcomes (file creation success, command exit status, clock
  readings) to the list of observable events it performs, in program order;
* the dispatcher loop plus semaphore plus wait group (`main` lines 144-157)
  as a small-step transition system over a system state holding the pending
  module list, the per-goroutine phase, the registry contents and the number
  of held semaphore tokens;
* the key-press monitor's `runningModules.Range` loop (lines 49-65) as an
  iteration interleaved with registry writers, following the documented
  contract of `sync.Map.Range` (it does not correspond to a consistent
  snapshot of the map);
* the `main` setup sequence (flag check, `MkdirAll`, `os.Open`, scanner loop,
  lines 96-133) as a pure function from environment outcomes to an outcome
  that either exits with code 1 or dispatches the parsed module list.
-/

namespace VolWrapper

/-! ### Go string helpers: `strings.LastIndex` and slicing (lines 26-27) -/

/-- Index of the last occurrence of character `c` in the character list, or
`-1` when absent, mirroring Go `strings.LastIndex(s, string(c))` for a
one-character separator. -/
def lastIndexChar (c : Char) : List Char → Int
  | [] => -1
  | a :: rest =>
      if 0 ≤ lastIndexChar c rest then lastIndexChar c rest + 1
      else if a = c then 0 else -1

/-- Go slice `s[strings.LastIndex(s, string(c))+1:]` on the underlying
character list: everything after the last occurrence of `c` (the whole list
when `c` is absent, since the index is then `-1`). -/
def afterLastSepL (c : Char) (s : List Char) : List Char :=
  s.drop (lastIndexChar c s + 1).toNat

/-- Modelled from the claim wording: the portion of the path after the last
separator, read off from the right end, i.e. the longest suffix containing no
separator. This is the specification-side definition to compare with the
code-side `afterLastSepL`. -/
def baseNameSpecL (c : Char) (s : List Char) : List Char :=
  (s.reverse.takeWhile (fun a => a ≠ c)).reverse

/-- Go `memoryImage[strings.LastIndex(memoryImage, string(os.PathSeparator))+1:]`
(line 26), at the `String` level, for separator character `sep`. -/
def memoryImageName (sep : Char) (memoryImage : String) : String :=
  String.mk (afterLastSepL sep memoryImage.data)

/-- Go `fmt.Sprintf("%s%c%s_%s.csv", outputDir, os.PathSeparator, memoryImageName, module)`
(line 27). -/
def outputFilePath (outputDir : String) (sep : Char) (memoryImage module : String) : String :=
  outputDir ++ sep.toString ++ memoryImageName sep memoryImage ++ "_" ++ module ++ ".csv"

/-! ### Concurrency limit (lines 130-133) -/

/-- Go `numGoroutines := runtime.NumCPU() - 1; if numGoroutines < 1 { numGoroutines = 1 }`,
with Go's signed `int` arithmetic modelled on `Int`. -/
def numGoroutines (numCPU : Nat) : Int :=
  let n : Int := (numCPU : Int) - 1
  if n < 1 then 1 else n

/-! ### One `runModule` call as its list of observable events (lines 19-47) -/

/-- Observable actions of one `runModule` call, in program order.
`store`/`delete` are the `runningModules.Store`/`Delete` calls (lines 23-24,
the delete deferred); `createFile` is the `os.Create` call with its success
bit (line 30); `execTool` is `cmd.Run()` on the command built at line 29 with
`cmd.Stdout = outfile` (line 37) and `cmd.Stderr = nil` (line 38, recorded as
`stderrDiscarded`); `closeFile` is the deferred `outfile.Close()` (line 35);
`wgDone` is the deferred `wg.Done()` (line 20); the `log…` events are the
`fmt.Printf` calls on each path. -/
inductive JEvent : Type
  | store (module : String) (t : Nat)
  | delete (module : String)
  | createFile (path : String) (ok : Bool)
  | logCreateError (module : String)
  | logRunning (module : String)
  | execTool (tool : String) (args : List String) (stdoutPath : String) (stderrDiscarded : Bool)
  | logRunError (module : String)
  | logCompleted (module : String) (elapsed : Nat)
  | closeFile
  | wgDone
deriving DecidableEq

/-- The event trace of one `runModule(volatilityPath, memoryImage, module, outputDir, wg)`
call (lines 19-47). The environment is abstracted by `createOk` (did
`os.Create` succeed), `runOk` (did `cmd.Run()` return nil, i.e. launch
succeed and exit zero), and clock readings `t₀` (line 22) and `t₁` (the
`time.Since` at line 44); elapsed time is `t₁ - t₀`. Deferred calls run in
reverse registration order on return: `Close`, then `Delete`, then `Done`. -/
def runModule (volatilityPath memoryImage module outputDir : String) (sep : Char)
    (createOk runOk : Bool) (t₀ t₁ : Nat) : List JEvent :=
  let outputFile := outputFilePath outputDir sep memoryImage module
  if createOk then
    [JEvent.store module t₀,
     JEvent.createFile outputFile true,
     JEvent.logRunning module,
     JEvent.execTool volatilityPath ["-f", memoryImage, "-r", "csv", module] outputFile true] ++
    (if runOk then [JEvent.logCompleted module (t₁ - t₀)]
     else [JEvent.logRunError module]) ++
    [JEvent.closeFile, JEvent.delete module, JEvent.wgDone]
  else
    [JEvent.store module t₀,
     JEvent.createFile outputFile false,
     JEvent.logCreateError module,
     JEvent.delete module,
     JEvent.wgDone]

/-! ### The `runningModules` map: `sync.Map` `Store`/`Delete` on an association list -/

/-- Registry contents: association list from module name to start time. -/
abbrev Registry := List (String × Nat)

/-- Keys of the registry, in order. -/
def keys (r : Registry) : List String := r.map Prod.fst

/-- Go `runningModules.Store(n, t)`: overwrite the entry for `n` if present,
otherwise add one. -/
def storeOp (n : String) (t : Nat) : Registry → Registry
  | [] => [(n, t)]
  | (m, u) :: rest => if m = n then (n, t) :: rest else (m, u) :: storeOp n t rest

/-- Go `runningModules.Delete(n)`: remove the entry for `n` if present
(first occurrence; under the no-duplicate-keys invariant this is the only
one), no-op if absent. -/
def deleteOp (n : String) : Registry → Registry
  | [] => []
  | (m, u) :: rest => if m = n then rest else (m, u) :: deleteOp n rest

/-! ### Dispatcher operational model (`main` lines 144-157 plus `runModule` phases)

Each admitted module runs as a goroutine. Its interaction with the shared
state, in the order fixed by the code, is: the semaphore send `sem <- struct{}{}`
and `wg.Add(1)` happen in `main` (lines 149-150) before the goroutine is
spawned (line 151); then inside `runModule` the `Store` (line 23); on return
the deferred calls run in reverse order, `Delete` (line 24) then `wg.Done`
(line 20); finally the spawning closure receives from the semaphore (line
153). The phases below name the positions between these shared-state events;
everything the goroutine does privately (path computation, file creation,
running the command) happens between `registered` and the deferred delete and
does not touch shared state, so it is abstracted away here. -/

/-- Position of one job's goroutine between its shared-state events. -/
inductive Phase : Type
  | spawned
  | registered
  | deregistered
  | signaled
  | finished
deriving DecidableEq

/-- One admitted job: its module name and current phase. -/
structure ExecSt : Type where
  name : String
  phase : Phase
deriving DecidableEq

/-- Shared state of the dispatcher: modules not yet admitted (in list order),
admitted goroutines (in admission order), the `runningModules` contents, and
the number of semaphore slots currently occupied. -/
structure SysState : Type where
  pending : List String
  execs : List ExecSt
  registry : Registry
  tokens : Nat
deriving DecidableEq

/-- Interleaved small-step transitions of the dispatcher with concurrency
limit `N` (the capacity of `sem`). `admitNext` is `main`'s loop body (lines
148-151, enabled only while the buffered channel has a free slot); the other
four are the successive shared-state events of one goroutine. -/
inductive Step (N : Nat) : SysState → SysState → Prop
  | admitNext (m : String) (rest : List String) (e : List ExecSt) (r : Registry)
      (tk : Nat) (h : tk < N) :
      Step N ⟨m :: rest, e, r, tk⟩ ⟨rest, e ++ [⟨m, Phase.spawned⟩], r, tk + 1⟩
  | register (p : List String) (e₁ e₂ : List ExecSt) (n : String) (r : Registry)
      (tk t : Nat) :
      Step N ⟨p, e₁ ++ ⟨n, Phase.spawned⟩ :: e₂, r, tk⟩
             ⟨p, e₁ ++ ⟨n, Phase.registered⟩ :: e₂, storeOp n t r, tk⟩
  | deregister (p : List String) (e₁ e₂ : List ExecSt) (n : String) (r : Registry)
      (tk : Nat) :
      Step N ⟨p, e₁ ++ ⟨n, Phase.registered⟩ :: e₂, r, tk⟩
             ⟨p, e₁ ++ ⟨n, Phase.deregistered⟩ :: e₂, deleteOp n r, tk⟩
  | signal (p : List String) (e₁ e₂ : List ExecSt) (n : String) (r : Registry)
      (tk : Nat) :
      Step N ⟨p, e₁ ++ ⟨n, Phase.deregistered⟩ :: e₂, r, tk⟩
             ⟨p, e₁ ++ ⟨n, Phase.signaled⟩ :: e₂, r, tk⟩
  | release (p : List String) (e₁ e₂ : List ExecSt) (n : String) (r : Registry)
      (tk : Nat) :
      Step N ⟨p, e₁ ++ ⟨n, Phase.signaled⟩ :: e₂, r, tk⟩
             ⟨p, e₁ ++ ⟨n, Phase.finished⟩ :: e₂, r, tk - 1⟩

/-- States reachable from the start of the dispatch loop on module list
`mods`: nothing admitted, empty registry, empty semaphore. -/
inductive Reachable (N : Nat) (mods : List String) : SysState → Prop
  | init : Reachable N mods ⟨mods, [], [], 0⟩
  | step {s s' : SysState} : Reachable N mods s → Step N s s' → Reachable N mods s'

/-- Zero or more steps, from an arbitrary state. -/
inductive Steps (N : Nat) : SysState → SysState → Prop
  | refl (s : SysState) : Steps N s s
  | tail {s s' s'' : SysState} : Steps N s s' → Step N s' s'' → Steps N s s''

/-- Number of admitted goroutines that have not yet released their semaphore
slot. -/
def countUnfinished (e : List ExecSt) : Nat :=
  (e.filter (fun x => x.phase ≠ Phase.finished)).length

/-- Names of the goroutines currently between their `Store` and their
deferred `Delete`. -/
def registeredNames (e : List ExecSt) : List String :=
  (e.filter (fun x => x.phase = Phase.registered)).map ExecSt.name

/-- Inductive invariant of the dispatcher. `tok_le`: the buffered channel
never holds more than its capacity. `tok_eq`: occupied slots are exactly the
admitted-but-not-released goroutines. `names_eq`: admission consumes the
module list in order, each module exactly once. `nodup`: registry keys are
distinct (`sync.Map` semantics). `reg_sub`: every registry key belongs to
some goroutine currently between `Store` and `Delete`. -/
structure Inv (N : Nat) (mods : List String) (s : SysState) : Prop where
  tok_le : s.tokens ≤ N
  tok_eq : s.tokens = countUnfinished s.execs
  names_eq : s.execs.map ExecSt.name ++ s.pending = mods
  nodup : (keys s.registry).Nodup
  reg_sub : keys s.registry ⊆ registeredNames s.execs

/-! ### Absence of a name from the registry is stable once no `Store` of it can recur -/

/-- No future `Store` of name `n` can happen: `n` is not waiting for
admission, and no spawned goroutine (one whose `Store` is still ahead of it)
carries `n`. -/
def noFutureStoreOf (n : String) (s : SysState) : Prop :=
  n ∉ s.pending ∧ ∀ x ∈ s.execs, x.name = n → x.phase ≠ Phase.spawned

/-! ### The status monitor's `runningModules.Range` (lines 54-61)

`monitorKeyPress` enumerates the map with `sync.Map.Range` while job
goroutines keep calling `Store` and `Delete`. Per the documented contract of
`Range`, each visited (key, value) pair is read atomically and no key is
visited twice, but `Range` does not correspond to a consistent snapshot of
the map: entries stored or deleted during the iteration may or may not be
reflected. The model interleaves three atomic events: the monitor visiting
one currently-present, not-yet-visited entry, a writer `Store`, and a writer
`Delete`. The enumeration is complete once every key currently in the map
has been visited. -/

/-- State of one in-progress `Range` enumeration: the current map contents
and the entries printed so far. -/
structure RangeSt : Type where
  reg : Registry
  snap : Registry
deriving DecidableEq

/-- One atomic event during the enumeration. -/
inductive RangeStep : RangeSt → RangeSt → Prop
  | visit (reg snap : Registry) (n : String) (t : Nat)
      (hmem : (n, t) ∈ reg) (hnew : n ∉ keys snap) :
      RangeStep ⟨reg, snap⟩ ⟨reg, snap ++ [(n, t)]⟩
  | wstore (reg snap : Registry) (n : String) (t : Nat) :
      RangeStep ⟨reg, snap⟩ ⟨storeOp n t reg, snap⟩
  | wdelete (reg snap : Registry) (n : String) :
      RangeStep ⟨reg, snap⟩ ⟨deleteOp n reg, snap⟩

/-- The enumeration has covered every key currently present. -/
def rangeDone (s : RangeSt) : Prop := ∀ p ∈ s.reg, p.1 ∈ keys s.snap

instance (s : RangeSt) : Decidable (rangeDone s) := by
  unfold rangeDone
  infer_instance

/-- A list of states is a run of the enumeration: consecutive states are
related by `RangeStep`. -/
def rangeRun : List RangeSt → Prop
  | [] => True
  | [_] => True
  | a :: b :: rest => RangeStep a b ∧ rangeRun (b :: rest)

/-- A `Range` run in which no writer interferes: every state shows the same
map contents `r`. -/
def quietRun (r : Registry) (tr : List RangeSt) : Prop :=
  rangeRun tr ∧ ∀ s ∈ tr, s.reg = r

/-- A concrete interleaved enumeration: the monitor visits `("A", 0)`, a
writer then deletes `"A"` and stores `("B", 5)`, and the monitor visits
`("B", 5)` and finishes. The printed set is `{A, B}`, which matches the map
contents at no instant of the enumeration. -/
def badTrace : List RangeSt :=
  [⟨[("A", 0)], []⟩,
   ⟨[("A", 0)], [("A", 0)]⟩,
   ⟨[], [("A", 0)]⟩,
   ⟨[("B", 5)], [("A", 0)]⟩,
   ⟨[("B", 5)], [("A", 0), ("B", 5)]⟩]

/-! ### `main` setup (lines 96-133): flags, output directory, module file -/

/-- What `main` does before starting any goroutine, ending either in
`os.Exit(1)` or in dispatching a module list. -/
inductive MainOutcome : Type
  | exitUsage
  | exitMkdir
  | exitOpen
  | exitScan
  | run (modules : List String)
deriving DecidableEq

/-- Environment outcomes `main` depends on: whether all four flags were
supplied (line 96), whether `os.MkdirAll` succeeded (line 102), whether
`os.Open` on the modules file succeeded (line 108), whether the scanner
finished without error (line 124), and the lines the scanner yields. -/
structure MainEnv : Type where
  flagsOk : Bool
  mkdirOk : Bool
  openOk : Bool
  scanOk : Bool
  fileLines : List String

/-- The scanner loop (lines 115-122): keep each non-empty line, in order. -/
def parseModules : List String → List String
  | [] => []
  | l :: ls => if l ≠ "" then l :: parseModules ls else parseModules ls

/-- The setup sequence of `main` (lines 96-133), in code order: missing
flags, a failed `MkdirAll`, a failed `Open` and a scanner error each call
`os.Exit(1)` before the dispatch loop; otherwise the parsed module list is
dispatched. -/
def mainSetup (env : MainEnv) : MainOutcome :=
  if !env.flagsOk then MainOutcome.exitUsage
  else if !env.mkdirOk then MainOutcome.exitMkdir
  else if !env.openOk then MainOutcome.exitOpen
  else if !env.scanOk then MainOutcome.exitScan
  else MainOutcome.run (parseModules env.fileLines)

/-- Process exit code of the setup phase: `some 1` on the abort paths
(every abort is `os.Exit(1)`), `none` when dispatch is reached. -/
def setupExitCode : MainOutcome → Option Nat
  | MainOutcome.run _ => none
  | _ => some 1

/-- Modules that reach the dispatch loop: none on the abort paths. -/
def launchedModules : MainOutcome → List String
  | MainOutcome.run ms => ms
  | _ => []

/-! ### Concrete runs of the dispatcher, used to instantiate the theorems -/

/-- A state of the scenario run: limit 2, list `pslist, pstree, netscan`,
two jobs admitted and registered, one still pending. -/
def sTwoRegistered : SysState :=
  ⟨["netscan"],
   [⟨"pslist", Phase.registered⟩, ⟨"pstree", Phase.registered⟩],
   [("pslist", 0), ("pstree", 1)], 2⟩

/-- The moment `wg.Wait` returns in a full sequential run of `a` then `b`
with limit 1: both jobs have signaled, `b` has not yet released its slot. -/
def sBothSignaled : SysState :=
  ⟨[], [⟨"a", Phase.finished⟩, ⟨"b", Phase.signaled⟩], [], 1⟩

/-- Final state of the same run after `b` releases its slot. -/
def sBothFinished : SysState :=
  ⟨[], [⟨"a", Phase.finished⟩, ⟨"b", Phase.finished⟩], [], 0⟩

/-- Two overlapping duplicates of job `a` with limit 2: both admitted, both
registered; the second `Store` overwrote the first entry's timestamp. -/
def sDupRegistered : SysState :=
  ⟨[], [⟨"a", Phase.registered⟩, ⟨"a", Phase.registered⟩], [("a", 1)], 2⟩

/-- A writer-free enumeration of the two-entry map, visiting both entries. -/
def quietTrace : List RangeSt :=
  [⟨[("A", 0), ("B", 5)], []⟩,
   ⟨[("A", 0), ("B", 5)], [("A", 0)]⟩,
   ⟨[("A", 0), ("B", 5)], [("A", 0), ("B", 5)]⟩]

/-! ### Properties -/

theorem lastIndexChar_nonneg_iff (c : Char) (s : List Char) :
    0 ≤ lastIndexChar c s ↔ c ∈ s := by
  induction s with
  | nil => simp [lastIndexChar]
  | cons a rest ih =>
      rw [List.mem_cons]
      simp only [lastIndexChar]
      by_cases hr : 0 ≤ lastIndexChar c rest
      · rw [if_pos hr]
        constructor
        · intro _; exact Or.inr (ih.mp hr)
        · intro _; omega
      · rw [if_neg hr]
        by_cases hac : a = c
        · rw [if_pos hac]
          constructor
          · intro _; exact Or.inl hac.symm
          · intro _; omega
        · rw [if_neg hac]
          constructor
          · intro h; omega
          · rintro (h | h)
            · exact absurd h.symm hac
            · exact absurd (ih.mpr h) hr

theorem takeWhile_append_of_exists {α : Type} (p : α → Bool) (l₁ l₂ : List α)
    (h : ∃ x ∈ l₁, ¬ p x) : (l₁ ++ l₂).takeWhile p = l₁.takeWhile p := by
  induction l₁ with
  | nil => obtain ⟨x, hx, _⟩ := h; simp at hx
  | cons a rest ih =>
      by_cases ha : p a
      · simp only [List.cons_append, List.takeWhile_cons, ha]
        obtain ⟨x, hx, hpx⟩ := h
        rcases List.mem_cons.mp hx with h₁ | h₁
        · exact absurd (h₁ ▸ ha) hpx
        · rw [ih ⟨x, h₁, hpx⟩]
      · simp [List.takeWhile_cons, ha]

theorem takeWhile_eq_self_of_all {α : Type} (p : α → Bool) (l : List α)
    (h : ∀ x ∈ l, p x) : l.takeWhile p = l := by
  induction l with
  | nil => rfl
  | cons a rest ih =>
      simp [List.takeWhile_cons, h a (List.mem_cons_self a rest),
        ih (fun x hx => h x (List.mem_cons_of_mem a hx))]

theorem takeWhile_append_stop {α : Type} (p : α → Bool) (l₁ l₂ : List α) (x : α)
    (h₁ : ∀ y ∈ l₁, p y) (hx : ¬ p x) : (l₁ ++ x :: l₂).takeWhile p = l₁ := by
  induction l₁ with
  | nil => simp [List.takeWhile_cons, hx]
  | cons a rest ih =>
      simp [List.takeWhile_cons, h₁ a (List.mem_cons_self a rest),
        ih (fun y hy => h₁ y (List.mem_cons_of_mem a hy))]

/-- The code's slice-from-`LastIndex` computation agrees with the
specification's description "the portion after the last path separator". -/
theorem afterLastSepL_eq_baseNameSpecL (c : Char) (s : List Char) :
    afterLastSepL c s = baseNameSpecL c s := by
  induction s with
  | nil => rfl
  | cons a rest ih =>
      by_cases hmem : c ∈ rest
      · have hr : 0 ≤ lastIndexChar c rest := (lastIndexChar_nonneg_iff c rest).mpr hmem
        have hstep : afterLastSepL c (a :: rest) = afterLastSepL c rest := by
          unfold afterLastSepL
          simp only [lastIndexChar, if_pos hr]
          have h2 : (lastIndexChar c rest + 1 + 1).toNat =
              (lastIndexChar c rest + 1).toNat + 1 := by omega
          rw [h2, List.drop_succ_cons]
        have hspec : baseNameSpecL c (a :: rest) = baseNameSpecL c rest := by
          simp only [baseNameSpecL, List.reverse_cons]
          rw [takeWhile_append_of_exists _ _ _ ⟨c, List.mem_reverse.mpr hmem, by simp⟩]
        rw [hstep, hspec, ih]
      · have hr : ¬ 0 ≤ lastIndexChar c rest := fun h =>
          hmem ((lastIndexChar_nonneg_iff c rest).mp h)
        have hall : ∀ x ∈ rest.reverse, (fun a => decide (a ≠ c)) x = true := by
          intro x hx
          simp only [decide_eq_true_eq]
          exact fun hxc => hmem (hxc ▸ List.mem_reverse.mp hx)
        by_cases hac : a = c
        · have hstep : afterLastSepL c (a :: rest) = rest := by
            unfold afterLastSepL
            simp only [lastIndexChar, if_neg hr, if_pos hac]
            rfl
          have hspec : baseNameSpecL c (a :: rest) = rest := by
            simp only [baseNameSpecL, List.reverse_cons]
            rw [takeWhile_append_stop _ rest.reverse [] a hall (by simp [hac]),
              List.reverse_reverse]
          rw [hstep, hspec]
        · have hstep : afterLastSepL c (a :: rest) = a :: rest := by
            unfold afterLastSepL
            simp only [lastIndexChar, if_neg hr, if_neg hac]
            rfl
          have hspec : baseNameSpecL c (a :: rest) = a :: rest := by
            simp only [baseNameSpecL, List.reverse_cons]
            rw [takeWhile_eq_self_of_all]
            · simp
            · intro x hx
              rcases List.mem_append.mp hx with h₁ | h₁
              · exact hall x h₁
              · simp only [List.mem_singleton] at h₁
                simp [h₁, hac]
          rw [hstep, hspec]

theorem keys_storeOp (n : String) (t : Nat) (r : Registry) :
    keys (storeOp n t r) = if n ∈ keys r then keys r else keys r ++ [n] := by
  induction r with
  | nil => simp [storeOp, keys]
  | cons p rest ih =>
      obtain ⟨m, u⟩ := p
      by_cases hmn : m = n
      · simp [storeOp, keys, hmn]
      · simp only [storeOp, if_neg hmn, keys, List.map_cons] at ih ⊢
        have hne : ¬ n = m := fun h => hmn h.symm
        by_cases hmem : n ∈ List.map Prod.fst rest
        · simp [hmem, hne, ih]
        · simp [hmem, hne, ih]

theorem nodup_keys_storeOp (n : String) (t : Nat) (r : Registry)
    (h : (keys r).Nodup) : (keys (storeOp n t r)).Nodup := by
  rw [keys_storeOp]
  by_cases hmem : n ∈ keys r
  · simpa [hmem] using h
  · simp only [hmem, if_neg, ite_false]
    simpa [List.nodup_append] using ⟨h, hmem⟩

theorem mem_keys_storeOp {k n : String} {t : Nat} {r : Registry}
    (h : k ∈ keys (storeOp n t r)) : k = n ∨ k ∈ keys r := by
  rw [keys_storeOp] at h
  by_cases hmem : n ∈ keys r
  · rw [if_pos hmem] at h; exact Or.inr h
  · rw [if_neg hmem] at h
    rcases List.mem_append.mp h with h₁ | h₁
    · exact Or.inr h₁
    · exact Or.inl (List.mem_singleton.mp h₁)

theorem mem_keys_deleteOp {k n : String} {r : Registry}
    (h : k ∈ keys (deleteOp n r)) : k ∈ keys r := by
  induction r with
  | nil => simp [deleteOp, keys] at h
  | cons p rest ih =>
      obtain ⟨m, u⟩ := p
      by_cases hmn : m = n
      · simp only [deleteOp, if_pos hmn] at h
        exact List.mem_cons_of_mem m h
      · simp only [deleteOp, if_neg hmn, keys, List.map_cons, List.mem_cons] at h ⊢
        rcases h with h₁ | h₁
        · exact Or.inl h₁
        · exact Or.inr (ih h₁)

theorem not_mem_keys_deleteOp {n : String} {r : Registry}
    (h : (keys r).Nodup) : n ∉ keys (deleteOp n r) := by
  induction r with
  | nil => simp [deleteOp, keys]
  | cons p rest ih =>
      obtain ⟨m, u⟩ := p
      simp only [keys, List.map_cons, List.nodup_cons] at h
      by_cases hmn : m = n
      · simp only [deleteOp, if_pos hmn]
        intro hn
        exact h.1 (hmn ▸ hn)
      · simp only [deleteOp, if_neg hmn, keys, List.map_cons, List.mem_cons]
        rintro (h₁ | h₁)
        · exact hmn h₁.symm
        · exact ih h.2 h₁

theorem nodup_keys_deleteOp (n : String) (r : Registry)
    (h : (keys r).Nodup) : (keys (deleteOp n r)).Nodup := by
  induction r with
  | nil => simp [deleteOp, keys]
  | cons p rest ih =>
      obtain ⟨m, u⟩ := p
      simp only [keys, List.map_cons, List.nodup_cons] at h
      by_cases hmn : m = n
      · simpa [deleteOp, if_pos hmn, keys] using h.2
      · simp only [deleteOp, if_neg hmn, keys, List.map_cons, List.nodup_cons]
        exact ⟨fun hmem => h.1 (mem_keys_deleteOp hmem), ih h.2⟩

theorem reachable_of_steps {N : Nat} {mods : List String} {s s' : SysState}
    (h : Reachable N mods s) (hs : Steps N s s') : Reachable N mods s' := by
  induction hs with
  | refl => exact h
  | tail _ hstep ih => exact Reachable.step ih hstep

theorem countUnfinished_append (e₁ e₂ : List ExecSt) :
    countUnfinished (e₁ ++ e₂) = countUnfinished e₁ + countUnfinished e₂ := by
  simp [countUnfinished, List.filter_append]

theorem countUnfinished_cons (x : ExecSt) (e : List ExecSt) :
    countUnfinished (x :: e) =
      (if x.phase = Phase.finished then 0 else 1) + countUnfinished e := by
  by_cases h : x.phase = Phase.finished
  · simp [countUnfinished, List.filter_cons, h]
  · simp [countUnfinished, List.filter_cons, h, Nat.add_comm]

theorem registeredNames_append (e₁ e₂ : List ExecSt) :
    registeredNames (e₁ ++ e₂) = registeredNames e₁ ++ registeredNames e₂ := by
  simp [registeredNames, List.filter_append]

theorem registeredNames_cons (x : ExecSt) (e : List ExecSt) :
    registeredNames (x :: e) =
      (if x.phase = Phase.registered then [x.name] else []) ++ registeredNames e := by
  by_cases h : x.phase = Phase.registered
  · simp [registeredNames, List.filter_cons, h]
  · simp [registeredNames, List.filter_cons, h]

theorem countUnfinished_mid (n : String) (ph : Phase) (e₁ e₂ : List ExecSt) :
    countUnfinished (e₁ ++ ⟨n, ph⟩ :: e₂) =
      countUnfinished e₁ + (if ph = Phase.finished then 0 else 1) + countUnfinished e₂ := by
  rw [countUnfinished_append, countUnfinished_cons]
  dsimp only
  omega

theorem registeredNames_mid (n : String) (ph : Phase) (e₁ e₂ : List ExecSt) :
    registeredNames (e₁ ++ ⟨n, ph⟩ :: e₂) =
      registeredNames e₁ ++ (if ph = Phase.registered then [n] else []) ++
        registeredNames e₂ := by
  rw [registeredNames_append, registeredNames_cons]
  dsimp only
  rw [List.append_assoc]

theorem step_inv {N : Nat} {mods : List String} {s s' : SysState}
    (hInv : Inv N mods s) (hstep : Step N s s') : Inv N mods s' := by
  cases hstep with
  | admitNext m rest e r tk h =>
      obtain ⟨h₁, h₂, h₃, h₄, h₅⟩ := hInv
      dsimp only at h₁ h₂ h₃ h₄ h₅
      refine ⟨?_, ?_, ?_, h₄, ?_⟩ <;> dsimp only
      · omega
      · rw [countUnfinished_append]
        have hone : countUnfinished [⟨m, Phase.spawned⟩] = 1 := rfl
        omega
      · simp only [List.map_append, List.map_cons, List.map_nil, List.append_assoc,
          List.singleton_append]
        exact h₃
      · rw [registeredNames_append,
          show registeredNames [⟨m, Phase.spawned⟩] = [] from rfl, List.append_nil]
        exact h₅
  | register p e₁ e₂ n r tk t =>
      obtain ⟨h₁, h₂, h₃, h₄, h₅⟩ := hInv
      dsimp only at h₁ h₂ h₃ h₄ h₅
      refine ⟨h₁, ?_, ?_, nodup_keys_storeOp n t r h₄, ?_⟩ <;> dsimp only
      · rw [countUnfinished_mid] at h₂ ⊢
        simp only [if_neg (by simp : ¬ Phase.spawned = Phase.finished)] at h₂
        simp only [if_neg (by simp : ¬ Phase.registered = Phase.finished)]
        omega
      · simpa using h₃
      · intro k hk
        rw [registeredNames_mid] at h₅ ⊢
        simp only [if_neg (by simp : ¬ Phase.spawned = Phase.registered),
          List.append_nil] at h₅
        simp only [if_pos rfl]
        rcases mem_keys_storeOp hk with hkn | hkr
        · subst hkn
          simp
        · have := h₅ hkr
          simp only [List.mem_append, List.mem_singleton] at this ⊢
          tauto
  | deregister p e₁ e₂ n r tk =>
      obtain ⟨h₁, h₂, h₃, h₄, h₅⟩ := hInv
      dsimp only at h₁ h₂ h₃ h₄ h₅
      refine ⟨h₁, ?_, ?_, nodup_keys_deleteOp n r h₄, ?_⟩ <;> dsimp only
      · rw [countUnfinished_mid] at h₂ ⊢
        simp only [if_neg (by simp : ¬ Phase.registered = Phase.finished)] at h₂
        simp only [if_neg (by simp : ¬ Phase.deregistered = Phase.finished)]
        omega
      · simpa using h₃
      · intro k hk
        have hkr : k ∈ keys r := mem_keys_deleteOp hk
        have hkn : k ≠ n := by
          intro he
          exact not_mem_keys_deleteOp h₄ (he ▸ hk)
        have := h₅ hkr
        rw [registeredNames_mid] at this ⊢
        simp at this ⊢
        tauto
  | signal p e₁ e₂ n r tk =>
      obtain ⟨h₁, h₂, h₃, h₄, h₅⟩ := hInv
      dsimp only at h₁ h₂ h₃ h₄ h₅
      refine ⟨h₁, ?_, ?_, h₄, ?_⟩ <;> dsimp only
      · rw [countUnfinished_mid] at h₂ ⊢
        simp only [if_neg (by simp : ¬ Phase.deregistered = Phase.finished)] at h₂
        simp only [if_neg (by simp : ¬ Phase.signaled = Phase.finished)]
        omega
      · simpa using h₃
      · intro k hk
        have := h₅ hk
        rw [registeredNames_mid] at this ⊢
        simp only [if_neg (by simp : ¬ Phase.deregistered = Phase.registered),
          List.append_nil] at this
        simp only [if_neg (by simp : ¬ Phase.signaled = Phase.registered),
          List.append_nil]
        exact this
  | release p e₁ e₂ n r tk =>
      obtain ⟨h₁, h₂, h₃, h₄, h₅⟩ := hInv
      dsimp only at h₁ h₂ h₃ h₄ h₅
      refine ⟨?_, ?_, ?_, h₄, ?_⟩ <;> dsimp only
      · omega
      · rw [countUnfinished_mid] at h₂ ⊢
        simp at h₂ ⊢
        omega
      · simpa using h₃
      · intro k hk
        have := h₅ hk
        rw [registeredNames_mid] at this ⊢
        simp only [if_neg (by simp : ¬ Phase.signaled = Phase.registered),
          List.append_nil] at this
        simp only [if_neg (by simp : ¬ Phase.finished = Phase.registered),
          List.append_nil]
        exact this

theorem reachable_inv {N : Nat} {mods : List String} {s : SysState}
    (h : Reachable N mods s) : Inv N mods s := by
  induction h with
  | init => exact ⟨Nat.zero_le N, rfl, rfl, List.nodup_nil, List.nil_subset _⟩
  | step _ hstep ih => exact step_inv ih hstep

theorem registry_length_le {N : Nat} {mods : List String} {s : SysState}
    (hInv : Inv N mods s) : s.registry.length ≤ min N mods.length := by
  have h1 : s.registry.length = (keys s.registry).length := by simp [keys]
  have h2 : (keys s.registry).length ≤ (registeredNames s.execs).length :=
    (hInv.nodup.subperm hInv.reg_sub).length_le
  have h3 : (registeredNames s.execs).length ≤ countUnfinished s.execs := by
    simp only [registeredNames, countUnfinished, List.length_map,
      ← List.countP_eq_length_filter]
    exact List.countP_mono_left (fun x _ hx => by
      simp only [decide_eq_true_eq] at hx
      simp [hx])
  have h4 : countUnfinished s.execs ≤ s.execs.length := List.length_filter_le _ _
  have h5 : s.execs.length + s.pending.length = mods.length := by
    have := congrArg List.length hInv.names_eq
    simpa using this
  have h6 := hInv.tok_le
  have h7 := hInv.tok_eq
  omega

theorem step_preserves_absent {N : Nat} {n : String} {s s' : SysState}
    (hstep : Step N s s') (hnf : noFutureStoreOf n s) (habs : n ∉ keys s.registry) :
    noFutureStoreOf n s' ∧ n ∉ keys s'.registry := by
  obtain ⟨hpend, hexec⟩ := hnf
  cases hstep with
  | admitNext m rest e r tk h =>
      dsimp only at hpend hexec habs ⊢
      refine ⟨⟨fun hn => hpend (List.mem_cons_of_mem m hn), ?_⟩, habs⟩
      intro x hx hxn
      rcases List.mem_append.mp hx with hx₁ | hx₁
      · exact hexec x hx₁ hxn
      · simp only [List.mem_singleton] at hx₁
        subst hx₁
        dsimp only at hxn
        exact absurd (hxn ▸ List.mem_cons_self m rest) hpend
  | register p e₁ e₂ m r tk t =>
      dsimp only at hpend hexec habs ⊢
      have hmn : m ≠ n := by
        intro he
        exact hexec ⟨m, Phase.spawned⟩
          (List.mem_append.mpr (Or.inr (List.mem_cons_self _ _))) he rfl
      refine ⟨⟨hpend, ?_⟩, ?_⟩
      · intro x hx hxn
        rcases List.mem_append.mp hx with hx₁ | hx₁
        · exact hexec x (List.mem_append.mpr (Or.inl hx₁)) hxn
        · rcases List.mem_cons.mp hx₁ with hx₂ | hx₂
          · subst hx₂; simp
          · exact hexec x (List.mem_append.mpr (Or.inr (List.mem_cons_of_mem _ hx₂))) hxn
      · intro hn
        rcases mem_keys_storeOp hn with h₁ | h₁
        · exact hmn h₁.symm
        · exact habs h₁
  | deregister p e₁ e₂ m r tk =>
      dsimp only at hpend hexec habs ⊢
      refine ⟨⟨hpend, ?_⟩, fun hn => habs (mem_keys_deleteOp hn)⟩
      intro x hx hxn
      rcases List.mem_append.mp hx with hx₁ | hx₁
      · exact hexec x (List.mem_append.mpr (Or.inl hx₁)) hxn
      · rcases List.mem_cons.mp hx₁ with hx₂ | hx₂
        · subst hx₂; simp
        · exact hexec x (List.mem_append.mpr (Or.inr (List.mem_cons_of_mem _ hx₂))) hxn
  | signal p e₁ e₂ m r tk =>
      dsimp only at hpend hexec habs ⊢
      refine ⟨⟨hpend, ?_⟩, habs⟩
      intro x hx hxn
      rcases List.mem_append.mp hx with hx₁ | hx₁
      · exact hexec x (List.mem_append.mpr (Or.inl hx₁)) hxn
      · rcases List.mem_cons.mp hx₁ with hx₂ | hx₂
        · subst hx₂; simp
        · exact hexec x (List.mem_append.mpr (Or.inr (List.mem_cons_of_mem _ hx₂))) hxn
  | release p e₁ e₂ m r tk =>
      dsimp only at hpend hexec habs ⊢
      refine ⟨⟨hpend, ?_⟩, habs⟩
      intro x hx hxn
      rcases List.mem_append.mp hx with hx₁ | hx₁
      · exact hexec x (List.mem_append.mpr (Or.inl hx₁)) hxn
      · rcases List.mem_cons.mp hx₁ with hx₂ | hx₂
        · subst hx₂; simp
        · exact hexec x (List.mem_append.mpr (Or.inr (List.mem_cons_of_mem _ hx₂))) hxn

theorem steps_preserves_absent {N : Nat} {n : String} {s s' : SysState}
    (hs : Steps N s s') (hnf : noFutureStoreOf n s) (habs : n ∉ keys s.registry) :
    noFutureStoreOf n s' ∧ n ∉ keys s'.registry := by
  induction hs with
  | refl => exact ⟨hnf, habs⟩
  | tail _ hstep ih => exact step_preserves_absent hstep ih.1 ih.2

theorem rangeRun_cons {a b : RangeSt} {rest : List RangeSt}
    (h : rangeRun (a :: b :: rest)) : RangeStep a b ∧ rangeRun (b :: rest) := h

/-- Along a quiet run starting from an empty snapshot, the snapshot stays a
sublist of facts of `r`: entries come from `r` and keys are distinct. -/
theorem quiet_snap_invariant (r : Registry) :
    ∀ tr : List RangeSt, rangeRun tr → (∀ s ∈ tr, s.reg = r) →
    ∀ a, tr.head? = some a →
    (∀ p ∈ a.snap, p ∈ r) → (keys a.snap).Nodup →
    ∀ z, tr.getLast? = some z →
    (∀ p ∈ z.snap, p ∈ r) ∧ (keys z.snap).Nodup ∧
      (∀ k, k ∈ keys a.snap → k ∈ keys z.snap) := by
  intro tr
  induction tr with
  | nil => intro _ _ a ha; simp at ha
  | cons x rest ih =>
      intro hrun hreg a ha hsub hnodup z hz
      simp only [List.head?_cons, Option.some_inj] at ha
      subst ha
      cases rest with
      | nil =>
          simp only [List.getLast?_singleton, Option.some_inj] at hz
          subst hz
          exact ⟨hsub, hnodup, fun k hk => hk⟩
      | cons y rest' =>
          obtain ⟨hstep, hrun'⟩ := rangeRun_cons hrun
          have hreg' : ∀ s ∈ y :: rest', s.reg = r := fun s hs =>
            hreg s (List.mem_cons_of_mem x hs)
          have hxreg : x.reg = r := hreg x (List.mem_cons_self _ _)
          have hyreg : y.reg = r := hreg' y (List.mem_cons_self _ _)
          have hz' : (y :: rest').getLast? = some z := by
            rw [← hz]
            exact List.getLast?_cons_cons.symm
          have hy : (y :: rest').head? = some y := rfl
          -- the step from x to y preserves the snapshot facts
          have hkey : (∀ p ∈ y.snap, p ∈ r) ∧ (keys y.snap).Nodup ∧
              (∀ k, k ∈ keys x.snap → k ∈ keys y.snap) := by
            cases hstep with
            | visit reg snap n t hmem hnew =>
                dsimp only at hxreg hyreg ⊢
                refine ⟨?_, ?_, ?_⟩
                · intro p hp
                  rcases List.mem_append.mp hp with h₁ | h₁
                  · exact hsub p h₁
                  · simp only [List.mem_singleton] at h₁
                    subst h₁
                    exact hxreg ▸ hmem
                · simp only [keys, List.map_append, List.map_cons, List.map_nil]
                  rw [List.nodup_append]
                  refine ⟨hnodup, List.nodup_singleton n, ?_⟩
                  intro k hk
                  simp only [List.mem_singleton]
                  intro he
                  exact hnew (he ▸ hk)
                · intro k hk
                  simp only [keys, List.map_append] at hk ⊢
                  exact List.mem_append.mpr (Or.inl hk)
            | wstore reg snap n t =>
                exact ⟨hsub, hnodup, fun k hk => hk⟩
            | wdelete reg snap n =>
                exact ⟨hsub, hnodup, fun k hk => hk⟩
          obtain ⟨hq₁, hq₂, hq₃⟩ :=
            ih hrun' hreg' y hy hkey.1 hkey.2.1 z hz'
          exact ⟨hq₁, hq₂, fun k hk => hq₃ k (hkey.2.2 k hk)⟩

/-- In a key-distinct association list, the entry for a key is unique. -/
theorem value_unique {r : Registry} (h : (keys r).Nodup) {k : String} {v w : Nat}
    (hv : (k, v) ∈ r) (hw : (k, w) ∈ r) : v = w := by
  induction r with
  | nil => simp at hv
  | cons p rest ih =>
      obtain ⟨m, u⟩ := p
      simp only [keys, List.map_cons, List.nodup_cons] at h
      rcases List.mem_cons.mp hv with h₁ | h₁ <;> rcases List.mem_cons.mp hw with h₂ | h₂
      · rw [Prod.mk.injEq] at h₁ h₂
        rw [h₁.2, h₂.2]
      · rw [Prod.mk.injEq] at h₁
        exact absurd (List.mem_map.mpr ⟨(k, w), h₂, rfl⟩) (h₁.1 ▸ h.1)
      · rw [Prod.mk.injEq] at h₂
        exact absurd (List.mem_map.mpr ⟨(k, v), h₁, rfl⟩) (h₂.1 ▸ h.1)
      · exact ih h.2 h₁ h₂

theorem mem_of_getLast_opt {α : Type} {l : List α} {a : α}
    (h : l.getLast? = some a) : a ∈ l := by
  have hx : a ∈ l.getLast? := by rw [h]; rfl
  obtain ⟨hne, heq⟩ := List.mem_getLast?_eq_getLast hx
  exact heq ▸ List.getLast_mem hne

/-- C4 (amended): a status-monitor enumeration whose `Range` overlaps no
concurrent `Store`/`Delete` — in particular one taken while the set of
in-flight jobs does not change — prints exactly the (name, timestamp) pairs
of the registry, up to order: empty when zero jobs are in flight, exactly
the K in-flight entries when K jobs are in flight. Each visited pair is read
atomically even in the interleaved case (the `visit` step reads a pair
present in the map), but a `Range` concurrent with writers need not match
the map contents at any single instant; see the counterexample. -/
theorem quiet_range_exact (r : Registry) (hnodup : (keys r).Nodup)
    (tr : List RangeSt) (hq : quietRun r tr)
    (hhead : tr.head? = some ⟨r, []⟩)
    (z : RangeSt) (hlast : tr.getLast? = some z) (hdone : rangeDone z) :
    z.snap.Perm r := by
  obtain ⟨hrun, hreg⟩ := hq
  obtain ⟨hsub, hsnodup, _⟩ :=
    quiet_snap_invariant r tr hrun hreg ⟨r, []⟩ hhead
      (by intro p hp; simp [keys] at hp) (by simp [keys]) z hlast
  have hzreg : z.reg = r := hreg z (mem_of_getLast_opt hlast)
  have hkeys : ∀ p ∈ r, p.1 ∈ keys z.snap := by
    intro p hp
    exact hdone p (hzreg ▸ hp)
  have hrsub : ∀ p ∈ r, p ∈ z.snap := by
    intro p hp
    have hk : p.1 ∈ keys z.snap := hkeys p hp
    obtain ⟨q, hq₁, hq₂⟩ := List.mem_map.mp hk
    have hqr : q ∈ r := hsub q hq₁
    obtain ⟨k, v⟩ := p
    obtain ⟨k', w⟩ := q
    simp only at hq₂
    subst hq₂
    have : w = v := value_unique hnodup hqr hp
    exact this ▸ hq₁
  have hsnodup' : z.snap.Nodup := List.Nodup.of_map _ (by simpa [keys] using hsnodup)
  have hrnodup : r.Nodup := List.Nodup.of_map _ (by simpa [keys] using hnodup)
  exact (hsnodup'.subperm hsub).antisymm (hrnodup.subperm hrsub)

theorem badTrace_run : rangeRun badTrace := by
  refine ⟨?_, ?_, ?_, ?_, trivial⟩
  · exact RangeStep.visit [("A", 0)] [] "A" 0 (by decide) (by decide)
  · exact RangeStep.wdelete [("A", 0)] [("A", 0)] "A"
  · exact RangeStep.wstore [] [("A", 0)] "B" 5
  · exact RangeStep.visit [("B", 5)] [("A", 0)] "B" 5 (by decide) (by decide)

theorem parseModules_eq_filter (lines : List String) :
    parseModules lines = lines.filter (fun l => l ≠ "") := by
  induction lines with
  | nil => rfl
  | cons l ls ih =>
      by_cases h : l = ""
      · simp [parseModules, List.filter_cons, h, ih]
      · simp [parseModules, List.filter_cons, h, ih]

theorem reach_two_registered :
    Reachable 2 ["pslist", "pstree", "netscan"] sTwoRegistered := by
  have h0 : Reachable 2 ["pslist", "pstree", "netscan"]
      ⟨["pslist", "pstree", "netscan"], [], [], 0⟩ := Reachable.init
  have h1 : Reachable 2 ["pslist", "pstree", "netscan"]
      ⟨["pstree", "netscan"], [⟨"pslist", Phase.spawned⟩], [], 1⟩ :=
    Reachable.step h0
      (Step.admitNext "pslist" ["pstree", "netscan"] [] [] 0 (by omega))
  have h2 : Reachable 2 ["pslist", "pstree", "netscan"]
      ⟨["netscan"], [⟨"pslist", Phase.spawned⟩, ⟨"pstree", Phase.spawned⟩], [], 2⟩ :=
    Reachable.step h1
      (Step.admitNext "pstree" ["netscan"] [⟨"pslist", Phase.spawned⟩] [] 1 (by omega))
  have h3 : Reachable 2 ["pslist", "pstree", "netscan"]
      ⟨["netscan"], [⟨"pslist", Phase.registered⟩, ⟨"pstree", Phase.spawned⟩],
       [("pslist", 0)], 2⟩ :=
    Reachable.step h2
      (Step.register ["netscan"] [] [⟨"pstree", Phase.spawned⟩] "pslist" [] 2 0)
  exact Reachable.step h3
    (Step.register ["netscan"] [⟨"pslist", Phase.registered⟩] [] "pstree"
      [("pslist", 0)] 2 1)

theorem reach_both_signaled : Reachable 1 ["a", "b"] sBothSignaled := by
  have h0 : Reachable 1 ["a", "b"] ⟨["a", "b"], [], [], 0⟩ := Reachable.init
  have h1 : Reachable 1 ["a", "b"] ⟨["b"], [⟨"a", Phase.spawned⟩], [], 1⟩ :=
    Reachable.step h0 (Step.admitNext "a" ["b"] [] [] 0 (by omega))
  have h2 : Reachable 1 ["a", "b"] ⟨["b"], [⟨"a", Phase.registered⟩], [("a", 0)], 1⟩ :=
    Reachable.step h1 (Step.register ["b"] [] [] "a" [] 1 0)
  have h3 : Reachable 1 ["a", "b"] ⟨["b"], [⟨"a", Phase.deregistered⟩], [], 1⟩ :=
    Reachable.step h2 (Step.deregister ["b"] [] [] "a" [("a", 0)] 1)
  have h4 : Reachable 1 ["a", "b"] ⟨["b"], [⟨"a", Phase.signaled⟩], [], 1⟩ :=
    Reachable.step h3 (Step.signal ["b"] [] [] "a" [] 1)
  have h5 : Reachable 1 ["a", "b"] ⟨["b"], [⟨"a", Phase.finished⟩], [], 0⟩ :=
    Reachable.step h4 (Step.release ["b"] [] [] "a" [] 1)
  have h6 : Reachable 1 ["a", "b"]
      ⟨[], [⟨"a", Phase.finished⟩, ⟨"b", Phase.spawned⟩], [], 1⟩ :=
    Reachable.step h5 (Step.admitNext "b" [] [⟨"a", Phase.finished⟩] [] 0 (by omega))
  have h7 : Reachable 1 ["a", "b"]
      ⟨[], [⟨"a", Phase.finished⟩, ⟨"b", Phase.registered⟩], [("b", 3)], 1⟩ :=
    Reachable.step h6 (Step.register [] [⟨"a", Phase.finished⟩] [] "b" [] 1 3)
  have h8 : Reachable 1 ["a", "b"]
      ⟨[], [⟨"a", Phase.finished⟩, ⟨"b", Phase.deregistered⟩], [], 1⟩ :=
    Reachable.step h7 (Step.deregister [] [⟨"a", Phase.finished⟩] [] "b" [("b", 3)] 1)
  exact Reachable.step h8 (Step.signal [] [⟨"a", Phase.finished⟩] [] "b" [] 1)

theorem reach_both_finished : Reachable 1 ["a", "b"] sBothFinished :=
  Reachable.step reach_both_signaled
    (Step.release [] [⟨"a", Phase.finished⟩] [] "b" [] 1)

theorem reach_dup_registered : Reachable 2 ["a", "a"] sDupRegistered := by
  have h0 : Reachable 2 ["a", "a"] ⟨["a", "a"], [], [], 0⟩ := Reachable.init
  have h1 : Reachable 2 ["a", "a"] ⟨["a"], [⟨"a", Phase.spawned⟩], [], 1⟩ :=
    Reachable.step h0 (Step.admitNext "a" ["a"] [] [] 0 (by omega))
  have h2 : Reachable 2 ["a", "a"]
      ⟨[], [⟨"a", Phase.spawned⟩, ⟨"a", Phase.spawned⟩], [], 2⟩ :=
    Reachable.step h1 (Step.admitNext "a" [] [⟨"a", Phase.spawned⟩] [] 1 (by omega))
  have h3 : Reachable 2 ["a", "a"]
      ⟨[], [⟨"a", Phase.registered⟩, ⟨"a", Phase.spawned⟩], [("a", 0)], 2⟩ :=
    Reachable.step h2 (Step.register [] [] [⟨"a", Phase.spawned⟩] "a" [] 2 0)
  exact Reachable.step h3
    (Step.register [] [⟨"a", Phase.registered⟩] [] "a" [("a", 0)] 2 1)

theorem quietTrace_quiet : quietRun [("A", 0), ("B", 5)] quietTrace := by
  refine ⟨⟨?_, ?_, trivial⟩, by decide⟩
  · exact RangeStep.visit [("A", 0), ("B", 5)] [] "A" 0 (by decide) (by decide)
  · exact RangeStep.visit [("A", 0), ("B", 5)] [("A", 0)] "B" 5 (by decide) (by decide)

/-! ### The claims -/

/-- C1 counterexample: on a create failure (`os.Create` returns an error),
`runModule` has already executed `runningModules.Store` — line 23 runs before
line 30 — so the claim that the job "returns without ever having registered a
start time" is false: the trace of a failing job contains the `store` event. -/
theorem createFail_registers_counterexample :
    JEvent.store "pslist" 0 ∈
      runModule "vol" "img.dd" "pslist" "out" '/' false false 0 0 := by decide

/-- C1 (amended): when the output file cannot be created, `runModule` aborts
only that job and returns: it registers the start time at entry (line 23),
attempts the create, logs the error, then the deferred delete deregisters
the job and the deferred `wg.Done` lets the batch continue; no external
command is run and nothing else happens. The full failure trace is exactly
these five events, so in particular no `execTool` event occurs and the
registration is removed before the job's completion is signaled. -/
theorem createFail_aborts_registered_job (vol img module outDir : String)
    (sep : Char) (runOk : Bool) (t₀ t₁ : Nat) :
    runModule vol img module outDir sep false runOk t₀ t₁ =
      [JEvent.store module t₀,
       JEvent.createFile (outputFilePath outDir sep img module) false,
       JEvent.logCreateError module,
       JEvent.delete module,
       JEvent.wgDone] := rfl

/-- C2: with concurrency limit `N ≥ 1`, in every reachable state of the
dispatcher at most `N` job executors are in flight (admitted and not yet
released), the occupied semaphore slots are exactly those executors — one
slot is taken at admission and freed when the executor's goroutine returns,
regardless of the job's outcome — and the number of registry entries never
exceeds `min N M` for a job list of `M` entries. -/
theorem bounded_concurrency (N : Nat) (_hN : 1 ≤ N) (mods : List String)
    (s : SysState) (h : Reachable N mods s) :
    countUnfinished s.execs ≤ N ∧ s.tokens = countUnfinished s.execs ∧
    s.registry.length ≤ min N mods.length := by
  have hInv := reachable_inv h
  exact ⟨hInv.tok_eq ▸ hInv.tok_le, hInv.tok_eq, registry_length_le hInv⟩

theorem bounded_concurrency_witness :
    countUnfinished sTwoRegistered.execs ≤ 2 ∧
    sTwoRegistered.tokens = countUnfinished sTwoRegistered.execs ∧
    sTwoRegistered.registry.length ≤ min 2 ["pslist", "pstree", "netscan"].length :=
  bounded_concurrency 2 (by decide) ["pslist", "pstree", "netscan"]
    sTwoRegistered reach_two_registered

/-- C3: at any reachable state where `runAll` (the `wg.Wait` at line 157)
can have returned — the admission loop has consumed the whole job list and
every admitted executor has already called its deferred `wg.Done`, which the
code order forces to happen after the deferred `Delete` — the registry is
empty: every job deregistered itself before its completion was counted. -/
theorem registry_empty_after_runAll (N : Nat) (mods : List String)
    (s : SysState) (h : Reachable N mods s) (_hpend : s.pending = [])
    (hdone : ∀ x ∈ s.execs, x.phase = Phase.signaled ∨ x.phase = Phase.finished) :
    s.registry = [] := by
  have hInv := reachable_inv h
  have hreg : registeredNames s.execs = [] := by
    unfold registeredNames
    rw [List.map_eq_nil_iff, List.filter_eq_nil_iff]
    intro x hx
    rcases hdone x hx with h₁ | h₁ <;> simp [h₁]
  have hkeys : keys s.registry = [] :=
    List.subset_nil.mp (hreg ▸ hInv.reg_sub)
  cases hcase : s.registry with
  | nil => rfl
  | cons p rest => rw [hcase] at hkeys; simp [keys] at hkeys

theorem registry_empty_witness : sBothSignaled.registry = [] :=
  registry_empty_after_runAll 1 ["a", "b"] sBothSignaled reach_both_signaled
    rfl (by decide)

/-- C4 counterexample: the printed snapshot of an enumeration interleaved
with writers can match the registry contents at no instant. In `badTrace`
the monitor prints `("A", 0)` and `("B", 5)`, yet the registry was
`[("A", 0)]`, then `[]`, then `[("B", 5)]` — never (any permutation of)
the printed set — refuting "every snapshot is a consistent, point-in-time
copy". -/
theorem range_snapshot_inconsistent :
    rangeRun badTrace ∧
    badTrace.head? = some ⟨[("A", 0)], []⟩ ∧
    badTrace.getLast? = some ⟨[("B", 5)], [("A", 0), ("B", 5)]⟩ ∧
    rangeDone ⟨[("B", 5)], [("A", 0), ("B", 5)]⟩ ∧
    ¬ ∃ s ∈ badTrace, s.reg.Perm [("A", 0), ("B", 5)] :=
  ⟨badTrace_run, rfl, rfl, by decide, by decide⟩

theorem quiet_range_exact_witness :
    (RangeSt.mk [("A", 0), ("B", 5)] [("A", 0), ("B", 5)]).snap.Perm
      [("A", 0), ("B", 5)] :=
  quiet_range_exact [("A", 0), ("B", 5)] (by decide) quietTrace quietTrace_quiet
    rfl ⟨[("A", 0), ("B", 5)], [("A", 0), ("B", 5)]⟩ rfl (by decide)

/-- C5: when two goroutines for the same module name overlap — both past
their `Store`, neither past its `Delete`, no further copy of the name
pending or spawned — the first one to reach its deferred `Delete` removes
the single entry for that name, and from then on the name is absent from
the registry (hence from every later snapshot) in every subsequent state,
although the other duplicate is still running. -/
theorem duplicate_delete_unregisters_inflight (N : Nat) (mods p : List String)
    (e₁ e₂ : List ExecSt) (n : String) (r : Registry) (tk : Nat)
    (hreach : Reachable N mods ⟨p, e₁ ++ ⟨n, Phase.registered⟩ :: e₂, r, tk⟩)
    (_hdup : ∃ x ∈ e₁ ++ e₂, x.name = n ∧ x.phase = Phase.registered)
    (hpend : n ∉ p)
    (hnospawn : ∀ x ∈ e₁ ++ e₂, x.name = n → x.phase ≠ Phase.spawned) :
    Step N ⟨p, e₁ ++ ⟨n, Phase.registered⟩ :: e₂, r, tk⟩
          ⟨p, e₁ ++ ⟨n, Phase.deregistered⟩ :: e₂, deleteOp n r, tk⟩ ∧
    n ∉ keys (deleteOp n r) ∧
    ∀ s' : SysState,
      Steps N ⟨p, e₁ ++ ⟨n, Phase.deregistered⟩ :: e₂, deleteOp n r, tk⟩ s' →
      n ∉ keys s'.registry := by
  have hInv := reachable_inv hreach
  have hnodup : (keys r).Nodup := hInv.nodup
  have habs : n ∉ keys (deleteOp n r) := not_mem_keys_deleteOp hnodup
  refine ⟨Step.deregister p e₁ e₂ n r tk, habs, ?_⟩
  intro s' hs'
  have hnf : noFutureStoreOf n
      ⟨p, e₁ ++ ⟨n, Phase.deregistered⟩ :: e₂, deleteOp n r, tk⟩ := by
    refine ⟨hpend, ?_⟩
    intro x hx hxn
    rcases List.mem_append.mp hx with h₁ | h₁
    · exact hnospawn x (List.mem_append.mpr (Or.inl h₁)) hxn
    · rcases List.mem_cons.mp h₁ with h₂ | h₂
      · subst h₂; simp
      · exact hnospawn x (List.mem_append.mpr (Or.inr h₂)) hxn
  exact (steps_preserves_absent hs' hnf habs).2

theorem duplicate_delete_witness : "a" ∉ keys (deleteOp "a" [("a", 1)]) :=
  (duplicate_delete_unregisters_inflight 2 ["a", "a"] [] []
    [⟨"a", Phase.registered⟩] "a" [("a", 1)] 2 reach_dup_registered
    ⟨⟨"a", Phase.registered⟩, by decide, rfl, rfl⟩ (by decide) (by decide)).2.1

/-- C6: the output path computed at lines 26-27 is exactly
`{outputDir}{separator}{imageBaseName}_{module}.csv`, where `imageBaseName`
is the portion of the image path after the last separator (the longest
suffix free of the separator). The path is a pure function of the four
inputs, so a rerun of the same job targets the same path (`os.Create`
truncates an existing file, so it is overwritten, never duplicated), and
both the create-failure and the create-success trace of `runModule` open
exactly this path. -/
theorem output_path_formula (vol outputDir : String) (sep : Char)
    (memoryImage module : String) :
    outputFilePath outputDir sep memoryImage module =
      outputDir ++ sep.toString ++ String.mk (baseNameSpecL sep memoryImage.data) ++
        "_" ++ module ++ ".csv" ∧
    ∀ (createOk runOk : Bool) (t₀ t₁ : Nat),
      JEvent.createFile (outputFilePath outputDir sep memoryImage module) createOk ∈
        runModule vol memoryImage module outputDir sep createOk runOk t₀ t₁ := by
  constructor
  · unfold outputFilePath memoryImageName
    rw [afterLastSepL_eq_baseNameSpecL]
  · intro createOk runOk t₀ t₁
    cases createOk <;> cases runOk <;> simp [runModule]

/-- C7: in every trace of a job whose output file was created, the external
tool is invoked exactly once, with exactly the arguments
`-f {image} -r csv {module}`, its standard output bound to the opened output
file and its standard error discarded; a nil `cmd.Run()` result yields the
completion report with elapsed time and no error line, and a non-nil result
(launch failure or non-zero exit) yields the error line and no completion
report. -/
theorem exec_invocation_shape (vol img module outDir : String) (sep : Char)
    (runOk : Bool) (t₀ t₁ : Nat) :
    (JEvent.execTool vol ["-f", img, "-r", "csv", module]
        (outputFilePath outDir sep img module) true ∈
      runModule vol img module outDir sep true runOk t₀ t₁) ∧
    (∀ (tool : String) (args : List String) (out : String) (b : Bool),
      JEvent.execTool tool args out b ∈
          runModule vol img module outDir sep true runOk t₀ t₁ →
      tool = vol ∧ args = ["-f", img, "-r", "csv", module] ∧
      out = outputFilePath outDir sep img module ∧ b = true) ∧
    (runOk = true →
      JEvent.logCompleted module (t₁ - t₀) ∈
          runModule vol img module outDir sep true runOk t₀ t₁ ∧
      JEvent.logRunError module ∉
          runModule vol img module outDir sep true runOk t₀ t₁) ∧
    (runOk = false →
      JEvent.logRunError module ∈
          runModule vol img module outDir sep true runOk t₀ t₁ ∧
      ∀ d : Nat, JEvent.logCompleted module d ∉
          runModule vol img module outDir sep true runOk t₀ t₁) := by
  refine ⟨?_, ?_, ?_, ?_⟩
  · cases runOk <;> simp [runModule]
  · intro tool args out b hmem
    cases runOk <;> simp [runModule] at hmem <;> exact hmem
  · intro h; subst h
    constructor
    · simp [runModule]
    · simp [runModule]
  · intro h; subst h
    constructor
    · simp [runModule]
    · intro d; simp [runModule]

theorem exec_invocation_witness :
    JEvent.execTool "vol" ["-f", "img.dd", "-r", "csv", "pslist"]
        (outputFilePath "out" '/' "img.dd" "pslist") true ∈
      runModule "vol" "img.dd" "pslist" "out" '/' true true 0 5 ∧
    JEvent.logCompleted "pslist" 5 ∈
      runModule "vol" "img.dd" "pslist" "out" '/' true true 0 5 :=
  ⟨(exec_invocation_shape "vol" "img.dd" "pslist" "out" '/' true 0 5).1,
   ((exec_invocation_shape "vol" "img.dd" "pslist" "out" '/' true 0 5).2.2.1 rfl).1⟩

/-- C8: the concurrency limit computed at lines 130-133 is the CPU count
minus one with a floor of one: `max 1 (numCPU - 1)` in signed arithmetic. -/
theorem concurrency_limit_formula (numCPU : Nat) :
    numGoroutines numCPU = max 1 ((numCPU : Int) - 1) := by
  unfold numGoroutines
  dsimp only
  split <;> omega

/-- C9: if the output directory cannot be created or the module-list file
cannot be read (open failure or scan error), `main` exits with code 1
before the dispatch loop: nothing is dispatched, and in the resulting
(empty) dispatch every reachable state has no executors and an empty
registry — no job is launched and no registry entry is ever created. -/
theorem fatal_input_aborts_batch (env : MainEnv)
    (hfail : env.mkdirOk = false ∨ env.openOk = false) :
    setupExitCode (mainSetup env) = some 1 ∧
    launchedModules (mainSetup env) = [] ∧
    ∀ (N : Nat) (s : SysState),
      Reachable N (launchedModules (mainSetup env)) s →
      s.execs = [] ∧ s.registry = [] := by
  have hset : setupExitCode (mainSetup env) = some 1 ∧
      launchedModules (mainSetup env) = [] := by
    unfold mainSetup
    rcases hfail with h | h
    · cases hf : env.flagsOk
      · simp [setupExitCode, launchedModules]
      · simp [h, setupExitCode, launchedModules]
    · cases hf : env.flagsOk
      · simp [setupExitCode, launchedModules]
      · cases hm : env.mkdirOk
        · simp [hm, setupExitCode, launchedModules]
        · simp [h, hm, setupExitCode, launchedModules]
  refine ⟨hset.1, hset.2, ?_⟩
  intro N s hs
  rw [hset.2] at hs
  have hInv := reachable_inv hs
  have hnames := hInv.names_eq
  have hexecs : s.execs = [] := by
    cases hex : s.execs with
    | nil => rfl
    | cons x xs => rw [hex] at hnames; simp at hnames
  refine ⟨hexecs, ?_⟩
  have hsub := hInv.reg_sub
  rw [hexecs] at hsub
  have hkeys : keys s.registry = [] := by
    apply List.subset_nil.mp
    simpa [registeredNames] using hsub
  cases hcase : s.registry with
  | nil => rfl
  | cons p rest => rw [hcase] at hkeys; simp [keys] at hkeys

theorem fatal_input_witness :
    setupExitCode (mainSetup ⟨true, false, true, true, ["pslist"]⟩) = some 1 :=
  (fatal_input_aborts_batch ⟨true, false, true, true, ["pslist"]⟩ (Or.inl rfl)).1

/-- C10: the scanner loop keeps exactly the non-empty lines of the job-list
file, in line order: the parsed module list is the filter of the lines on
non-emptiness, blank lines contribute nothing, duplicates are kept with
their multiplicity, and once the admission loop has drained the pending
list, the admitted executors are exactly the parsed modules, in order, each
admitted exactly once. -/
theorem nonempty_lines_become_jobs (lines : List String) :
    parseModules lines = lines.filter (fun l => l ≠ "") ∧
    "" ∉ parseModules lines ∧
    (∀ m : String, m ≠ "" → (parseModules lines).count m = lines.count m) ∧
    ∀ (N : Nat) (s : SysState),
      Reachable N (parseModules lines) s → s.pending = [] →
      s.execs.map ExecSt.name = parseModules lines := by
  refine ⟨parseModules_eq_filter lines, ?_, ?_, ?_⟩
  · rw [parseModules_eq_filter]
    intro h
    have := List.of_mem_filter h
    simp at this
  · intro m hm
    rw [parseModules_eq_filter]
    exact List.count_filter (by simp [hm])
  · intro N s hre hpend
    have hnames := (reachable_inv hre).names_eq
    rw [hpend, List.append_nil] at hnames
    exact hnames

theorem nonempty_lines_witness :
    sBothFinished.execs.map ExecSt.name = parseModules ["a", "", "b"] :=
  (nonempty_lines_become_jobs ["a", "", "b"]).2.2.2 1 sBothFinished
    reach_both_finished rfl

end VolWrapper
